import Mathlib

set_option maxRecDepth 40000

namespace Batoms

/-!
Verification development for the `batoms` add-on sources (`batom.py`, `batoms.py`).

The Python classes are shallowly embedded: the per-species element/occupancy
table (`obj.batom.elements`, a Blender property collection that preserves
insertion order) is a `List (String × ℚ)`; positions are triples of rationals;
fallible methods return `Except String`.  Floating-point values are idealised
as rationals; comparisons and arithmetic are exact.
-/

/-- One entry of a species' element table: element symbol and occupancy. -/
abbrev Elem := String × ℚ

/-- Python `elements['X'] = v` on an insertion-ordered dict: update the value
in place if the key exists, otherwise append the new pair at the end. -/
def dictInsert (d : List Elem) (k : String) (v : ℚ) : List Elem :=
  if d.any (fun p => p.1 == k) then d.map (fun p => if p.1 = k then (k, v) else p)
  else d ++ [(k, v)]

/-- Total occupancy `sum(elements.values())`. -/
def occuSum (d : List Elem) : ℚ := (d.map Prod.snd).sum

/-- Embedding of `Batom.check_elements` (batom.py:290-302), dict branch:
if the total occupancy is below `1 - 1e-6` a vacancy entry `'X'` is written
with occupancy `1 - occu`; if it exceeds `1 + 1e-6` a `ValueError` is raised;
otherwise the table is returned unchanged. -/
def check_elements (d : List Elem) : Except String (List Elem) :=
  if occuSum d < 1 - 1/1000000 then Except.ok (dictInsert d "X" (1 - occuSum d))
  else if 1 + 1/1000000 < occuSum d then
    Except.error "Total occumpancy should be smaller than 1!"
  else Except.ok d

/-- Embedding of `Batom.set_elements` (batom.py:319-330) at the level of the
stored element table: `check_elements` runs first, so when it raises, the
stored collection (`old`) is left untouched; on success the collection is
cleared and rebuilt from the checked table. -/
def run_set_elements (old d : List Elem) : List Elem :=
  match check_elements d with
  | Except.error _ => old
  | Except.ok els => els

instance {ε α : Type} [DecidableEq ε] [DecidableEq α] : DecidableEq (Except ε α) := fun a b =>
  match a, b with
  | Except.error e, Except.error f =>
    decidable_of_iff (e = f) ⟨fun h => by rw [h], fun h => by injection h⟩
  | Except.error _, Except.ok _ => isFalse (fun h => Except.noConfusion h)
  | Except.ok _, Except.error _ => isFalse (fun h => Except.noConfusion h)
  | Except.ok x, Except.ok y =>
    decidable_of_iff (x = y) ⟨fun h => by rw [h], fun h => by injection h⟩

/-! ## Occupancy-based material assignment (`Batom.assign_materials`) -/

/-- The ordering used by `sorted(self.elements.items(), key=lambda x: -x[1])`:
descending occupancy. -/
def occGe (a b : Elem) : Prop := b.2 ≤ a.2

instance : DecidableRel occGe := fun a b => inferInstanceAs (Decidable (b.2 ≤ a.2))

/-- Python's `sorted` is specified as a stable sort; a stable sort by a total
preorder is extensionally unique, so it is modelled by `List.insertionSort`,
which is stable: on ties, `orderedInsert` keeps the earlier-listed element in
front. -/
def sortedEle (d : List Elem) : List Elem := d.insertionSort occGe

/-- The face-assignment loop of `Batom.assign_materials` (batom.py:223-228):
`tos = 0; for i in range(1, nele): toe = tos + sorted_ele[i][1];` faces with
`tos < angle < toe` get material index `i`; `tos = toe`.  `cur` is the face's
current material index (read from the mesh by `foreach_get`); later iterations
overwrite earlier ones, and a face matched by no interval keeps `cur`. -/
def assignGo : List ℚ → ℚ → ℕ → ℚ → ℕ → ℕ
  | [], _, _, _, cur => cur
  | occ :: rest, tos, i, angle, cur =>
    assignGo rest (tos + occ) (i + 1) angle
      (if tos < angle ∧ angle < tos + occ then i else cur)

/-- One face of `assign_materials`: the loop runs over the sorted elements
`1..nele-1` (element 0's occupancy is never added to the cumulative sum). -/
def assignFace (occs : List ℚ) (angle : ℚ) (cur : ℕ) : ℕ :=
  match occs with
  | [] => cur
  | _ :: rest => assignGo rest 0 1 angle cur

/-- Embedding of `Batom.assign_materials` (batom.py:201-229) on the data it
manipulates: the element table `d` (as sorted), the per-face angles
`(atan2(ny, nx) + pi) / (2 pi)` (precomputed, one per polygon), and the
per-face material-index array `mats` as read from the mesh.  When the species
has at most one element the index array is left untouched. -/
def assign_materials (d : List Elem) (angles : List ℚ) (mats : List ℕ) : List ℕ :=
  if 1 < (sortedEle d).length then
    (angles.zip mats).map (fun p => assignFace ((sortedEle d).map Prod.snd) p.1 p.2)
  else mats

/-- C1's claimed walk, stated from the claim's words: cumulative fractions
`c_0 = occ_0, c_i = c_(i-1) + occ_i`; a face with angle in the half-open
interval `[c_(i-1), c_i)` belongs to element `i` (element 0 owns `[0, c_0)`),
and element 0 is the default for any face not otherwise claimed. -/
def specWalkGo : List ℚ → ℚ → ℕ → ℚ → ℕ
  | [], _, _, _ => 0
  | occ :: rest, c, i, angle =>
    if c ≤ angle ∧ angle < c + occ then i else specWalkGo rest (c + occ) (i + 1) angle

/-- The whole-mesh assignment that claim C1 describes. -/
def spec_assign_materials (d : List Elem) (angles : List ℚ) (mats : List ℕ) : List ℕ :=
  if 1 < (sortedEle d).length then
    (angles.zip mats).map (fun p => specWalkGo ((sortedEle d).map Prod.snd) 0 0 p.1)
  else mats

/-- The amended walk, from the amended claim's words: element `i ≥ 1` owns the
open interval `(t_(i-1), t_i)` with `t_0 = 0` and `t_i = occ_1 + ... + occ_i`
(the majority element's occupancy is skipped); the first — equivalently, under
nonnegative occupancies, the only — interval strictly containing the angle
wins, and a face inside no interval keeps its prior material index. -/
def wedgeGo : List ℚ → ℚ → ℕ → ℚ → ℕ → ℕ
  | [], _, _, _, cur => cur
  | occ :: rest, tos, i, angle, cur =>
    if tos < angle ∧ angle < tos + occ then i else wedgeGo rest (tos + occ) (i + 1) angle cur

/-- One face of the amended rule. -/
def wedgeFace (occs : List ℚ) (angle : ℚ) (cur : ℕ) : ℕ :=
  match occs with
  | [] => cur
  | _ :: rest => wedgeGo rest 0 1 angle cur

/-- The whole-mesh assignment of the amended claim. -/
def wedge_assign_materials (d : List Elem) (angles : List ℚ) (mats : List ℕ) : List ℕ :=
  if 1 < (sortedEle d).length then
    (angles.zip mats).map (fun p => wedgeFace ((sortedEle d).map Prod.snd) p.1 p.2)
  else mats

/-! ## `main_element` and the rounded element table -/

/-- Python's `round` to the nearest integer (banker's half-even tie rule),
idealised on exact rationals. -/
def pyRound (q : ℚ) : ℤ :=
  if q - ⌊q⌋ = 1/2 then (if ⌊q⌋ % 2 = 0 then ⌊q⌋ else ⌊q⌋ + 1) else round q

/-- Rounding `round(occupancy, 3)` as applied by `Batom.get_elements` (batom.py:312). -/
def round3 (q : ℚ) : ℚ := (pyRound (q * 1000) : ℚ) / 1000

/-- Embedding of `Batom.get_elements` (batom.py:308-313): the stored element
collection is read back in insertion order, every occupancy rounded to three
decimal places. -/
def get_elements (d : List Elem) : List Elem := d.map (fun p => (p.1, round3 p.2))

/-- Embedding of `Batom.main_element` (batom.py:332-339): sort the (rounded)
element table by descending occupancy with Python's stable `sorted`; if entry
0 is the vacancy `'X'`, answer entry 1's symbol — an `IndexError`, modelled as
`none`, when there is no entry 1 (or no entry 0) — else entry 0's symbol. -/
def main_element (d : List Elem) : Option String :=
  match sortedEle (get_elements d) with
  | [] => none
  | e :: rest => if e.1 = "X" then rest.head?.map Prod.fst else some e.1

/-- One step of the claim's tie-breaking maximum: keep the accumulator unless
the new entry's occupancy is strictly higher, so the earliest-listed maximal
entry survives. -/
def pick (a p : Elem) : Elem := if a.2 < p.2 then p else a

/-- The earliest-listed entry of maximal occupancy. -/
def firstMax : List Elem → Option Elem
  | [] => none
  | h :: t => some (t.foldl pick h)

/-- Predicate true for entries other than the vacancy filler `'X'`. -/
def notX (p : Elem) : Bool := p.1 != "X"

/-- C4's selection rule, stated from the (amended) claim's words: among the
non-vacancy entries of the rounded table, the one with the highest occupancy,
ties resolved in favour of the entry appearing first in the species
definition; `none` when no non-vacancy entry remains. -/
def mainElementSpec (d : List Elem) : Option String :=
  (firstMax ((get_elements d).filter notX)).map Prod.fst

/-! ## Positions and the placement transform -/

/-- A 3-vector of exact rationals. -/
abbrev V3 := ℚ × ℚ × ℚ

/-- Dot product of 3-vectors. -/
def dot3 (a b : V3) : ℚ := a.1 * b.1 + a.2.1 * b.2.1 + a.2.2 * b.2.2

/-- The object's placement (`obj.matrix_world`): the linear part as rows
`r1, r2, r3`, plus a translation `t`. -/
structure Placement where
  r1 : V3
  r2 : V3
  r3 : V3
  t : V3

/-- Apply a placement to a point. -/
def applyPlacement (M : Placement) (p : V3) : V3 :=
  (dot3 M.r1 p + M.t.1, dot3 M.r2 p + M.t.2.1, dot3 M.r3 p + M.t.2.2)

/-- Determinant of the linear part. -/
def det3 (M : Placement) : ℚ :=
  M.r1.1 * (M.r2.2.1 * M.r3.2.2 - M.r2.2.2 * M.r3.2.1)
    - M.r1.2.1 * (M.r2.1 * M.r3.2.2 - M.r2.2.2 * M.r3.1)
    + M.r1.2.2 * (M.r2.1 * M.r3.2.1 - M.r2.2.1 * M.r3.1)

/-- Inverse placement: adjugate of the linear part over the determinant, and
translation `-Aeinv t` (meaningful whenever the determinant is nonzero, which
holds for every valid object placement). -/
def invPlacement (M : Placement) : Placement :=
  let dv := det3 M
  let s1 : V3 := ((M.r2.2.1 * M.r3.2.2 - M.r2.2.2 * M.r3.2.1) / dv,
    (M.r1.2.2 * M.r3.2.1 - M.r1.2.1 * M.r3.2.2) / dv,
    (M.r1.2.1 * M.r2.2.2 - M.r1.2.2 * M.r2.2.1) / dv)
  let s2 : V3 := ((M.r2.2.2 * M.r3.1 - M.r2.1 * M.r3.2.2) / dv,
    (M.r1.1 * M.r3.2.2 - M.r1.2.2 * M.r3.1) / dv,
    (M.r1.2.2 * M.r2.1 - M.r1.1 * M.r2.2.2) / dv)
  let s3 : V3 := ((M.r2.1 * M.r3.2.1 - M.r2.2.1 * M.r3.1) / dv,
    (M.r1.2.1 * M.r3.1 - M.r1.1 * M.r3.2.1) / dv,
    (M.r1.1 * M.r2.2.1 - M.r1.2.1 * M.r2.1) / dv)
  let lin : Placement := ⟨s1, s2, s3, (0, 0, 0)⟩
  let t' := applyPlacement lin M.t
  ⟨s1, s2, s3, (-t'.1, -t'.2.1, -t'.2.2)⟩

/-- Modelled from the spec: `local2global` is imported from `batoms.tools`,
which is not among the sources.  Per the spec (§4.2), global positions are
`transform(local)` and locals are `inverse-transform(global)` under the
collection's placement transform; `rev = true` applies the inverse. -/
def local2global (positions : List V3) (M : Placement) (rev : Bool) : List V3 :=
  if rev then positions.map (applyPlacement (invPlacement M))
  else positions.map (applyPlacement M)

/-- Embedding of `Batom.get_positions` (batom.py:407-414). -/
def get_positions (localPos : List V3) (M : Placement) : List V3 :=
  local2global localPos M false

/-- Embedding of `Batom.set_positions` (batom.py:416-430): raise `ValueError`
on a length mismatch, else store the inverse-transformed positions as the
mesh's local vertex coordinates. -/
def set_positions (localPos : List V3) (M : Placement) (p : List V3) :
    Except String (List V3) :=
  if p.length ≠ localPos.length then
    Except.error "positions has wrong shape"
  else Except.ok (local2global p M true)

/-- The identity placement. -/
def idPlacement : Placement := ⟨(1, 0, 0), (0, 1, 0), (0, 0, 1), (0, 0, 0)⟩

/-! ## `repeat` -/

/-- Componentwise vector addition. -/
def addV (a b : V3) : V3 := (a.1 + b.1, a.2.1 + b.2.1, a.2.2 + b.2.2)

/-- Scalar times vector. -/
def scaleV (s : ℚ) (v : V3) : V3 := (s * v.1, s * v.2.1, s * v.2.2)

/-- A 3x3 lattice cell as three row vectors. -/
abbrev Cell := V3 × V3 × V3

/-- Combination `np.dot((m0, m1, m2), cell)`: the integer combination of the lattice
rows. -/
def mcomb (m0 m1 m2 : ℕ) (cell : Cell) : V3 :=
  addV (scaleV m0 cell.1) (addV (scaleV m1 cell.2.1) (scaleV m2 cell.2.2))

/-- Test `vec.any()`: true iff some component is nonzero. -/
def vecAny (v : V3) : Bool := !(v.1 == 0 && v.2.1 == 0 && v.2.2 == 0)

/-- The tiled-and-translated position array built by `Batom.repeat`
(batom.py:779-790): `np.tile` lays out `M = m0*m1*m2` copies of the `n`
positions and the nested loops (lexicographic `m0, m1, m2` order) shift each
consecutive block of `n` rows by `np.dot((m0, m1, m2), cell)`. -/
def repeatBlocks (pos : List V3) (m : ℕ × ℕ × ℕ) (cell : Cell) : List V3 :=
  (List.range m.1).flatMap (fun m0 =>
    (List.range m.2.1).flatMap (fun m1 =>
      (List.range m.2.2).flatMap (fun m2 =>
        pos.map (fun p => addV p (mcomb m0 m1 m2 cell)))))

/-- Embedding of `Batom.repeat` (batom.py:765-805), positions only (frames
are replicated by an identical loop when more than one frame exists), for a
collection at the identity placement with origin location: first validate
that every axis with multiplicity `!= 1` has a nonzero lattice vector —
`raise ValueError('Cannot repeat along undefined lattice vector')` happens
before anything is mutated — then append the tiled copies beyond the original
`n` sites (`self.add_vertices(positions[n:])`). -/
def repeat_batom (pos : List V3) (m : ℕ × ℕ × ℕ) (cell : Cell) :
    Except String (List V3) :=
  if (m.1 ≠ 1 ∧ vecAny cell.1 = false) ∨ (m.2.1 ≠ 1 ∧ vecAny cell.2.1 = false)
      ∨ (m.2.2 ≠ 1 ∧ vecAny cell.2.2 = false) then
    Except.error "Cannot repeat along undefined lattice vector"
  else
    Except.ok (pos ++ (repeatBlocks pos m cell).drop pos.length)

/-- C7's claimed error condition, stated from the claim's words: some
multiplicity strictly greater than 1 along a zero lattice vector. -/
def claimLatticeError (m : ℕ × ℕ × ℕ) (cell : Cell) : Prop :=
  (1 < m.1 ∧ vecAny cell.1 = false) ∨ (1 < m.2.1 ∧ vecAny cell.2.1 = false)
    ∨ (1 < m.2.2 ∧ vecAny cell.2.2 = false)

instance (m : ℕ × ℕ × ℕ) (cell : Cell) : Decidable (claimLatticeError m cell) :=
  decidable_of_iff ((1 < m.1 ∧ vecAny cell.1 = false) ∨ (1 < m.2.1 ∧ vecAny cell.2.1 = false)
    ∨ (1 < m.2.2 ∧ vecAny cell.2.2 = false)) Iff.rfl

/-! ## `delete` -/

/-- The index argument of `delete`: a boolean mask or an index list (the code
distinguishes them by `isinstance(index[0], (bool, np.bool_))`). -/
inductive DelIndex where
  | bools : List Bool → DelIndex
  | ints : List ℕ → DelIndex

/-- Indices `np.where(mask)[0]`: the positions holding `True`. -/
def whereTrue (mask : List Bool) : List ℕ :=
  ((List.range mask.length).zip mask).filterMap
    (fun p => if p.2 then some p.1 else none)

/-- Embedding of `Batom.delete_verts` (batom.py:606-621): look up each index
in the vertex table (`IndexError` when out of range), delete the selected
vertices; if none remains, the object and its instancer are removed —
modelled as `none` — else the surviving vertices, in their original relative
order and renumbered contiguously from 0, are written back. -/
def delete_verts (sites : List String) (index : List ℕ) :
    Except String (Option (List String)) :=
  if index.all (fun i => i < sites.length) then
    Except.ok
      (if ((((List.range sites.length).zip sites).filter
            (fun p => decide (p.1 ∉ index))).map Prod.snd).length = 0 then none
       else some ((((List.range sites.length).zip sites).filter
            (fun p => decide (p.1 ∉ index))).map Prod.snd))
  else Except.error "IndexError"

/-- Embedding of `Batom.delete` (batom.py:623-640): `index[0]` is read
unconditionally to test for a boolean mask — so an empty index sequence is an
`IndexError` — then the resolved integer index list goes to `delete_verts`. -/
def delete_batom (sites : List String) (idx : DelIndex) :
    Except String (Option (List String)) :=
  match idx with
  | DelIndex.bools [] => Except.error "list index out of range"
  | DelIndex.ints [] => Except.error "list index out of range"
  | DelIndex.bools mask => delete_verts sites (whereTrue mask)
  | DelIndex.ints l => delete_verts sites l

/-- Embedding of `Batoms.delete` (batoms.py:931-948): its dispatch on
`index[0]` is line-for-line the same as `Batom.delete`'s. -/
def delete_batoms (sites : List String) (idx : DelIndex) :
    Except String (Option (List String)) :=
  match idx with
  | DelIndex.bools [] => Except.error "list index out of range"
  | DelIndex.ints [] => Except.error "list index out of range"
  | DelIndex.bools mask => delete_verts sites (whereTrue mask)
  | DelIndex.ints l => delete_verts sites l

/-! ## Theorems -/

/-- C2: whenever the occupancies sum to more than `1 + 1e-6`, `check_elements`
raises the over-occupancy `ValueError` (the raise happens before any state is
written, both in `Batom.__init__`, where it precedes `build_object`, and in
`Batom.set_elements`, where it precedes `collection.clear()`), so the stored
element table is left unchanged and no species is registered. -/
theorem check_elements_over_occupancy (d : List Elem)
    (hs : 1 + 1/1000000 < occuSum d) :
    check_elements d = Except.error "Total occumpancy should be smaller than 1!" ∧
    ∀ old, run_set_elements old d = old := by
  have h1 : ¬ occuSum d < 1 - 1/1000000 := by
    intro h
    have : (1:ℚ) + 1/1000000 < 1 - 1/1000000 := lt_trans hs h
    norm_num at this
  have hcode : check_elements d =
      Except.error "Total occumpancy should be smaller than 1!" := by
    unfold check_elements
    rw [if_neg h1, if_pos hs]
  refine ⟨hcode, fun old => ?_⟩
  unfold run_set_elements
  rw [hcode]

theorem check_elements_over_occupancy_witness :
    (1 + 1/1000000 < occuSum [("Fe", (2:ℚ))]) ∧
    (check_elements [("Fe", (2:ℚ))] =
       Except.error "Total occumpancy should be smaller than 1!" ∧
     ∀ old, run_set_elements old [("Fe", (2:ℚ))] = old) :=
  ⟨by with_unfolding_all decide,
   check_elements_over_occupancy [("Fe", (2:ℚ))] (by with_unfolding_all decide)⟩

/-- C3 as stated is false: the vacancy symbol `"X"` may itself appear in the
given mapping, and then `elements['X'] = 1 - occu` overwrites its stated
occupancy instead of keeping it.  Concretely, `{"X": 0.3}` sums to `0.3`,
is under-occupied, and comes back with its `"X"` occupancy replaced by `0.7`. -/
theorem check_elements_vacancy_overwrite :
    check_elements [("X", 3/10)] = Except.ok [("X", 7/10)] ∧
    ((3:ℚ)/10 ≠ 7/10) := by
  with_unfolding_all decide

/-- C3 (amended): for every element-occupancy mapping that does not use the
reserved vacancy symbol `"X"` and whose occupancies sum below `1 - 1e-6`,
`check_elements` appends a vacancy entry `("X", 1 - sum)` — its occupancy is
exactly `1` minus the sum — and every given element keeps its stated
occupancy (the given table is an unchanged prefix of the result).  A given
`"X"` entry would instead be overwritten to `1 - sum`. -/
theorem check_elements_under_occupancy (d : List Elem)
    (hs : occuSum d < 1 - 1/1000000) (hx : ∀ p ∈ d, p.1 ≠ "X") :
    check_elements d = Except.ok (d ++ [("X", 1 - occuSum d)]) := by
  unfold check_elements
  rw [if_pos hs]
  unfold dictInsert
  have hany : d.any (fun p => p.1 == "X") = false := by
    rw [List.any_eq_false]
    intro p hp
    simpa using hx p hp
  rw [hany]
  simp

theorem check_elements_under_occupancy_witness :
    (occuSum [("Fe", (3:ℚ)/5)] < 1 - 1/1000000) ∧
    (∀ p ∈ [("Fe", (3:ℚ)/5)], p.1 ≠ "X") ∧
    check_elements [("Fe", (3:ℚ)/5)] =
      Except.ok ([("Fe", (3:ℚ)/5)] ++ [("X", 1 - occuSum [("Fe", (3:ℚ)/5)])]) :=
  ⟨by with_unfolding_all decide, by decide,
   check_elements_under_occupancy [("Fe", (3:ℚ)/5)]
     (by with_unfolding_all decide) (by decide)⟩

/-- C1 as stated is false on the code.  With `{"Al": 3/4, "Si": 1/4}` the code
walks `tos = 0, toe = occ_1 = 1/4` — the cumulative sum never includes element
0's occupancy — so the face with angle `1/10` is painted with material 1 (Si),
while the claim's walk (`c_0 = 3/4`, element 0 owning `[0, 3/4)`) assigns it
to element 0 (Al). -/
theorem assign_materials_interval_counterexample :
    assign_materials [("Al", 3/4), ("Si", 1/4)] [1/10] [0] = [1] ∧
    spec_assign_materials [("Al", 3/4), ("Si", 1/4)] [1/10] [0] = [0] := by
  with_unfolding_all decide

theorem assignGo_of_le (rest : List ℚ) (tos : ℚ) (i : ℕ) (angle : ℚ) (cur : ℕ)
    (h : angle ≤ tos) (hnn : ∀ o ∈ rest, 0 ≤ o) :
    assignGo rest tos i angle cur = cur := by
  induction rest generalizing tos i cur with
  | nil => rfl
  | cons o rest ih =>
    have ho : 0 ≤ o := hnn o (by simp)
    have hcond : ¬ (tos < angle ∧ angle < tos + o) :=
      fun hc => absurd hc.1 (not_lt.mpr h)
    simp only [assignGo, if_neg hcond]
    exact ih (tos + o) (i + 1) cur (le_trans h (by linarith))
      (fun o' ho' => hnn o' (List.mem_cons_of_mem _ ho'))

theorem assignGo_eq_wedgeGo (rest : List ℚ) (tos : ℚ) (i : ℕ) (angle : ℚ) (cur : ℕ)
    (hnn : ∀ o ∈ rest, 0 ≤ o) :
    assignGo rest tos i angle cur = wedgeGo rest tos i angle cur := by
  induction rest generalizing tos i cur with
  | nil => rfl
  | cons o rest ih =>
    by_cases hc : tos < angle ∧ angle < tos + o
    · simp only [assignGo, wedgeGo, if_pos hc]
      exact assignGo_of_le rest (tos + o) (i + 1) angle i (le_of_lt hc.2)
        (fun o' ho' => hnn o' (List.mem_cons_of_mem _ ho'))
    · simp only [assignGo, wedgeGo, if_neg hc]
      exact ih (tos + o) (i + 1) cur (fun o' ho' => hnn o' (List.mem_cons_of_mem _ ho'))

/-- C1 (amended): for nonnegative occupancies the code's per-face assignment
is exactly the amended wedge rule — element `i ≥ 1` gets precisely the faces
whose angle lies strictly inside `(t_(i-1), t_i)`, `t_i` the cumulative
occupancy of the sorted elements *excluding* the majority element, and every
other face keeps the material index it already had (0, the majority element,
on a freshly created instancer mesh). -/
theorem assign_materials_wedge (d : List Elem) (angles : List ℚ) (mats : List ℕ)
    (hnn : ∀ p ∈ d, 0 ≤ p.2) :
    assign_materials d angles mats = wedge_assign_materials d angles mats := by
  unfold assign_materials wedge_assign_materials
  by_cases h : 1 < (sortedEle d).length
  · rw [if_pos h, if_pos h]
    apply List.map_congr_left
    intro p _
    have hnn' : ∀ o ∈ (sortedEle d).map Prod.snd, 0 ≤ o := by
      intro o ho
      rcases List.mem_map.mp ho with ⟨q, hq, rfl⟩
      exact hnn q ((List.perm_insertionSort occGe d).mem_iff.mp hq)
    cases hos : (sortedEle d).map Prod.snd with
    | nil => rfl
    | cons o rest =>
      show assignGo rest 0 1 p.1 p.2 = wedgeGo rest 0 1 p.1 p.2
      exact assignGo_eq_wedgeGo rest 0 1 p.1 p.2
        (fun o' ho' => by
          have : o' ∈ (sortedEle d).map Prod.snd := by
            rw [hos]; exact List.mem_cons_of_mem _ ho'
          exact hnn' o' this)
  · rw [if_neg h, if_neg h]

theorem assign_materials_wedge_witness :
    (∀ p ∈ [("Al", (3:ℚ)/4), ("Si", (1:ℚ)/4)], 0 ≤ p.2) ∧
    assign_materials [("Al", (3:ℚ)/4), ("Si", (1:ℚ)/4)] [1/10, 1/2] [0, 0]
      = wedge_assign_materials [("Al", (3:ℚ)/4), ("Si", (1:ℚ)/4)] [1/10, 1/2] [0, 0] :=
  ⟨by with_unfolding_all decide,
   assign_materials_wedge [("Al", (3:ℚ)/4), ("Si", (1:ℚ)/4)] [1/10, 1/2] [0, 0]
     (by with_unfolding_all decide)⟩

theorem assignGo_const_or_id (rest : List ℚ) (tos : ℚ) (i : ℕ) (angle : ℚ) :
    (∀ cur, assignGo rest tos i angle cur = cur) ∨
    (∃ r, ∀ cur, assignGo rest tos i angle cur = r) := by
  induction rest generalizing tos i with
  | nil => exact Or.inl (fun cur => rfl)
  | cons o rest ih =>
    by_cases hc : tos < angle ∧ angle < tos + o
    · exact Or.inr ⟨assignGo rest (tos + o) (i + 1) angle i,
        fun cur => by simp only [assignGo, if_pos hc]⟩
    · rcases ih (tos + o) (i + 1) with h | ⟨r, hr⟩
      · exact Or.inl (fun cur => by simp only [assignGo, if_neg hc]; exact h cur)
      · exact Or.inr ⟨r, fun cur => by simp only [assignGo, if_neg hc]; exact hr cur⟩

theorem assignFace_idem (occs : List ℚ) (angle : ℚ) (cur : ℕ) :
    assignFace occs angle (assignFace occs angle cur) = assignFace occs angle cur := by
  cases occs with
  | nil => rfl
  | cons o rest =>
    show assignGo rest 0 1 angle (assignGo rest 0 1 angle cur)
      = assignGo rest 0 1 angle cur
    rcases assignGo_const_or_id rest 0 1 angle with h | ⟨r, hr⟩
    · rw [h, h]
    · rw [hr, hr]

theorem zip_map_idem (g : ℚ → ℕ → ℕ) (hg : ∀ a m, g a (g a m) = g a m) :
    ∀ (angles : List ℚ) (mats : List ℕ), angles.length = mats.length →
    (angles.zip ((angles.zip mats).map (fun p => g p.1 p.2))).map (fun p => g p.1 p.2)
      = (angles.zip mats).map (fun p => g p.1 p.2) := by
  intro angles
  induction angles with
  | nil => intro mats _; rfl
  | cons a as ih =>
    intro mats h
    cases mats with
    | nil => simp at h
    | cons m ms =>
      simp only [List.zip_cons_cons, List.map_cons]
      rw [hg]
      rw [ih ms (by simpa using h)]

/-- C9: `assign_materials` is a pure function of the sorted element table, the
face-normal angles and the prior material-index array — two runs from the same
mesh state are literally the same value (there is no randomness in the
embedding because there is none in the source) — and running it on its own
output with unchanged inputs changes nothing: faces matched by an interval get
the same index again, and unmatched faces keep the value the first run left. -/
theorem assign_materials_idempotent (d : List Elem) (angles : List ℚ) (mats : List ℕ)
    (h : angles.length = mats.length) :
    assign_materials d angles (assign_materials d angles mats)
      = assign_materials d angles mats := by
  unfold assign_materials
  by_cases h1 : 1 < (sortedEle d).length
  · simp only [if_pos h1]
    exact zip_map_idem (fun a m => assignFace ((sortedEle d).map Prod.snd) a m)
      (fun a m => assignFace_idem _ a m) angles mats h
  · simp only [if_neg h1]

theorem assign_materials_idempotent_witness :
    ([(1:ℚ)/10, 1/2, 9/10].length = [0, 0, 0].length) ∧
    assign_materials [("Al", (3:ℚ)/4), ("Si", (1:ℚ)/4)] [1/10, 1/2, 9/10]
        (assign_materials [("Al", (3:ℚ)/4), ("Si", (1:ℚ)/4)] [1/10, 1/2, 9/10] [0, 0, 0])
      = assign_materials [("Al", (3:ℚ)/4), ("Si", (1:ℚ)/4)] [1/10, 1/2, 9/10] [0, 0, 0] :=
  ⟨rfl, assign_materials_idempotent [("Al", (3:ℚ)/4), ("Si", (1:ℚ)/4)]
    [1/10, 1/2, 9/10] [0, 0, 0] rfl⟩

theorem pick_eq (a p : Elem) : pick a p = if a.2 < p.2 then p else a := rfl

/-- C4 as stated is false on the code: `main_element` compares occupancies
only after `get_elements` has rounded them to three decimals.  With
`{"Fe": 0.4999, "Al": 0.5001}` the element of strictly highest occupancy is
`"Al"`, but both occupancies round to `0.5` and the stable descending sort
leaves first-defined `"Fe"` in front, so the code answers `"Fe"`. -/
theorem main_element_rounding_counterexample :
    main_element [("Fe", 4999/10000), ("Al", 5001/10000)] = some "Fe" ∧
    (4999:ℚ)/10000 < 5001/10000 := by
  with_unfolding_all decide

theorem pick_assoc (x h y : Elem) : pick (pick x h) y = pick x (pick h y) := by
  unfold pick
  split_ifs <;> first | rfl | (exfalso; linarith)

theorem foldl_pick_step (ys : List Elem) (x y : Elem) :
    ys.foldl pick (pick x y) = pick x (ys.foldl pick y) := by
  induction ys generalizing x y with
  | nil => rfl
  | cons z zs ih =>
    simp only [List.foldl_cons]
    rw [pick_assoc, ih]

theorem foldl_pick_mem (t : List Elem) (h : Elem) : t.foldl pick h ∈ h :: t := by
  induction t generalizing h with
  | nil => simp
  | cons y ys ih =>
    simp only [List.foldl_cons]
    rcases List.mem_cons.mp (ih (pick h y)) with h1 | h1
    · rw [h1]
      unfold pick
      split_ifs
      · exact List.mem_cons_of_mem _ (List.mem_cons_self _ _)
      · exact List.mem_cons_self _ _
    · exact List.mem_cons_of_mem _ (List.mem_cons_of_mem _ h1)

theorem le_foldl_pick (t : List Elem) (h : Elem) :
    ∀ x ∈ h :: t, x.2 ≤ (t.foldl pick h).2 := by
  induction t generalizing h with
  | nil =>
    intro x hx
    rw [List.mem_singleton.mp hx]
    exact le_refl _
  | cons y ys ih =>
    intro x hx
    simp only [List.foldl_cons]
    have hsub := ih (pick h y)
    rcases List.mem_cons.mp hx with rfl | hx'
    · have h1 : x.2 ≤ (pick x y).2 := by
        unfold pick; split_ifs with hh
        · exact le_of_lt hh
        · exact le_refl _
      exact le_trans h1 (hsub _ (List.mem_cons_self _ _))
    · rcases List.mem_cons.mp hx' with rfl | hx''
      · have h1 : x.2 ≤ (pick h x).2 := by
          unfold pick
          split_ifs with hh
          · exact le_refl _
          · exact not_lt.mp hh
        exact le_trans h1 (hsub _ (List.mem_cons_self _ _))
      · exact hsub x (List.mem_cons_of_mem _ hx'')

theorem insertionSort_head (l : List Elem) :
    (l.insertionSort occGe).head? = firstMax l := by
  induction l with
  | nil => rfl
  | cons x xs ih =>
    show (List.orderedInsert occGe x (xs.insertionSort occGe)).head? = _
    cases hs : xs.insertionSort occGe with
    | nil =>
      have hxs : xs = [] := by
        have hlen := List.length_insertionSort occGe xs
        rw [hs] at hlen
        exact List.eq_nil_of_length_eq_zero hlen.symm
      subst hxs
      rfl
    | cons b s' =>
      rw [hs] at ih
      have hxs : xs ≠ [] := by
        intro hh
        rw [hh] at hs
        simp [List.insertionSort] at hs
      obtain ⟨y, ys, rfl⟩ := List.exists_cons_of_ne_nil hxs
      have hb : ys.foldl pick y = b := by
        have h1 : some (ys.foldl pick y) = some b := by
          show firstMax (y :: ys) = some b
          rw [← ih]
          rfl
        injection h1
      have hfm : firstMax (x :: y :: ys) = some (pick x b) := by
        show some ((y :: ys).foldl pick x) = some (pick x b)
        simp only [List.foldl_cons]
        rw [foldl_pick_step, hb]
      rw [hfm]
      by_cases hr : occGe x b
      · rw [List.orderedInsert_of_le occGe s' hr]
        show some x = some (pick x b)
        have : pick x b = x := by
          unfold pick
          exact if_neg (not_lt.mpr hr)
        rw [this]
      · have hoi : List.orderedInsert occGe x (b :: s')
            = b :: List.orderedInsert occGe x s' := by
          simp only [List.orderedInsert, if_neg hr]
        rw [hoi]
        show some b = some (pick x b)
        have hxb : x.2 < b.2 := not_le.mp hr
        have : pick x b = b := by
          unfold pick
          exact if_pos hxb
        rw [this]

theorem insertionSort_tail_erase (l : List Elem) (a : Elem) (t : List Elem)
    (hnd : l.Nodup) (h : l.insertionSort occGe = a :: t) :
    t = (l.erase a).insertionSort occGe := by
  induction l generalizing a t with
  | nil => simp [List.insertionSort] at h
  | cons x xs ih =>
    have hstep : (x :: xs).insertionSort occGe
        = List.orderedInsert occGe x (xs.insertionSort occGe) := rfl
    rw [hstep] at h
    cases hs : xs.insertionSort occGe with
    | nil =>
      rw [hs] at h
      simp only [List.orderedInsert_nil] at h
      have hax : a = x ∧ t = [] := by
        constructor
        · injection h with h1 _
          exact h1.symm
        · injection h with _ h2
          exact h2.symm
      obtain ⟨rfl, rfl⟩ := hax
      have hxs : xs = [] := by
        have hlen := List.length_insertionSort occGe xs
        rw [hs] at hlen
        exact List.eq_nil_of_length_eq_zero hlen.symm
      rw [List.erase_cons_head, hxs]
      rfl
    | cons b s' =>
      rw [hs] at h
      by_cases hr : occGe x b
      · rw [List.orderedInsert_of_le occGe s' hr] at h
        injection h with h1 h2
        subst h1
        rw [List.erase_cons_head, ← h2, hs]
      · have hoi : List.orderedInsert occGe x (b :: s')
            = b :: List.orderedInsert occGe x s' := by
          simp only [List.orderedInsert, if_neg hr]
        rw [hoi] at h
        injection h with h1 h2
        subst h1
        have hbxs : b ∈ xs := by
          have hmem : b ∈ xs.insertionSort occGe := by
            rw [hs]
            exact List.mem_cons_self _ _
          exact (List.perm_insertionSort occGe xs).subset hmem
        have hnx : x ∉ xs := (List.nodup_cons.mp hnd).1
        have hxb : ¬ (x == b) = true := by
          simp only [beq_iff_eq]
          intro hh
          exact hnx (hh ▸ hbxs)
        rw [List.erase_cons_tail hxb]
        have hs' : s' = (xs.erase b).insertionSort occGe :=
          ih b s' (List.nodup_cons.mp hnd).2 hs
        show t = List.orderedInsert occGe x ((xs.erase b).insertionSort occGe)
        rw [← hs', ← h2]

theorem erase_X_eq_filter (l : List Elem) (e : Elem)
    (hkeys : (l.map Prod.fst).Nodup) (he : e ∈ l) (hX : e.1 = "X") :
    l.erase e = l.filter notX := by
  induction l with
  | nil => rfl
  | cons x xs ih =>
    have hk : x.1 ∉ xs.map Prod.fst ∧ (xs.map Prod.fst).Nodup := by
      rw [List.map_cons] at hkeys
      exact List.nodup_cons.mp hkeys
    rcases List.mem_cons.mp he with rfl | hmem
    · rw [List.erase_cons_head]
      have hnx : notX e = false := by simp [notX, hX]
      rw [List.filter_cons_of_neg (by simp [hnx])]
      symm
      apply List.filter_eq_self.mpr
      intro p hp
      have hne : p.1 ≠ "X" := by
        intro hh
        apply hk.1
        rw [hX, ← hh]
        exact List.mem_map_of_mem Prod.fst hp
      simp [notX, hne]
    · have hx1 : x.1 ≠ "X" := by
        intro hh
        apply hk.1
        rw [hh, ← hX]
        exact List.mem_map_of_mem Prod.fst hmem
      have hxe : ¬ (x == e) = true := by
        simp only [beq_iff_eq]
        intro hh
        exact hx1 (hh ▸ hX)
      rw [List.erase_cons_tail hxe]
      rw [List.filter_cons_of_pos (by simp [notX, hx1])]
      rw [ih hk.2 hmem]

theorem foldl_pick_filter (xs : List Elem) (x : Elem)
    (hX : (xs.foldl pick x).1 ≠ "X") :
    firstMax ((x :: xs).filter notX) = some (xs.foldl pick x) := by
  induction xs generalizing x with
  | nil =>
    have hx : notX x = true := by simpa [notX] using hX
    rw [List.filter_cons_of_pos (by rw [hx])]
    rfl
  | cons y ys ih =>
    have hstep : (y :: ys).foldl pick x = pick x (ys.foldl pick y) := by
      simp only [List.foldl_cons]
      rw [foldl_pick_step]
    rw [hstep] at hX ⊢
    by_cases hxX : notX x = true
    · rw [List.filter_cons_of_pos (by rw [hxX])]
      cases hL : (y :: ys).filter notX with
      | nil =>
        have hmX : (ys.foldl pick y).1 = "X" := by
          have hmem : ys.foldl pick y ∈ y :: ys := foldl_pick_mem ys y
          have hall := List.filter_eq_nil_iff.mp hL
          have := hall _ hmem
          simpa [notX] using this
        have hpick : pick x (ys.foldl pick y) = x := by
          rw [pick_eq]
          rw [if_neg]
          intro hlt
          apply hX
          show (pick x (ys.foldl pick y)).1 = "X"
          rw [pick_eq, if_pos hlt]
          exact hmX
        rw [hpick]
        rfl
      | cons l0 l0s =>
        have hfm : firstMax (x :: l0 :: l0s) = some (pick x (l0s.foldl pick l0)) := by
          show some ((l0 :: l0s).foldl pick x) = _
          simp only [List.foldl_cons]
          rw [foldl_pick_step]
        rw [hfm]
        by_cases hmX : (ys.foldl pick y).1 = "X"
        · have hxm : ¬ x.2 < (ys.foldl pick y).2 := by
            intro hlt
            apply hX
            show (pick x (ys.foldl pick y)).1 = "X"
            rw [pick_eq, if_pos hlt]
            exact hmX
          have hm'mem : l0s.foldl pick l0 ∈ y :: ys := by
            have h1 : l0s.foldl pick l0 ∈ (y :: ys).filter notX := by
              rw [hL]
              exact foldl_pick_mem l0s l0
            exact List.mem_of_mem_filter h1
          have hle : (l0s.foldl pick l0).2 ≤ (ys.foldl pick y).2 :=
            le_foldl_pick ys y _ hm'mem
          have h1 : pick x (ys.foldl pick y) = x := by
            rw [pick_eq]
            exact if_neg hxm
          have h2 : pick x (l0s.foldl pick l0) = x := by
            rw [pick_eq]
            rw [if_neg]
            intro hlt
            exact hxm (lt_of_lt_of_le hlt hle)
          rw [h1, h2]
        · have hIH := ih y hmX
          rw [hL] at hIH
          have hm' : l0s.foldl pick l0 = ys.foldl pick y := by
            have : some (l0s.foldl pick l0) = some (ys.foldl pick y) := hIH
            injection this
          rw [hm']
    · have hxX' : x.1 = "X" := by
        have := eq_false_of_ne_true hxX
        simpa [notX] using this
      rw [List.filter_cons_of_neg (by simp [eq_false_of_ne_true hxX])]
      have hlt : x.2 < (ys.foldl pick y).2 := by
        by_contra hh
        apply hX
        show (pick x (ys.foldl pick y)).1 = "X"
        rw [pick_eq, if_neg hh]
        exact hxX'
      have hpick : pick x (ys.foldl pick y) = ys.foldl pick y := by
        rw [pick_eq]
        exact if_pos hlt
      rw [hpick] at hX ⊢
      exact ih y hX

/-- C4 (amended): `main_element` returns the non-vacancy element whose
occupancy is highest *after `get_elements` rounds occupancies to three
decimal places*, ties after rounding resolved in favour of the element that
appeared first in the species definition; it fails (`IndexError` in the code,
`none` here) exactly when only the vacancy filler — or nothing — remains.
The hypothesis that element symbols are distinct is a dict invariant. -/
theorem main_element_eq_spec (d : List Elem) (hnd : (d.map Prod.fst).Nodup) :
    main_element d = mainElementSpec d := by
  have hkeys : ((get_elements d).map Prod.fst).Nodup := by
    unfold get_elements
    rw [List.map_map]
    exact hnd
  have hnd' : (get_elements d).Nodup := List.Nodup.of_map _ hkeys
  cases hs : sortedEle (get_elements d) with
  | nil =>
    have hnil : get_elements d = [] := by
      have hlen := List.length_insertionSort occGe (get_elements d)
      unfold sortedEle at hs
      rw [hs] at hlen
      exact List.eq_nil_of_length_eq_zero hlen.symm
    unfold main_element mainElementSpec
    rw [hs, hnil]
    rfl
  | cons e rest =>
    have hhead : firstMax (get_elements d) = some e := by
      rw [← insertionSort_head]
      unfold sortedEle at hs
      rw [hs]
      rfl
    cases hged : get_elements d with
    | nil =>
      rw [hged] at hhead
      simp [firstMax] at hhead
    | cons x xs =>
      have hfold : xs.foldl pick x = e := by
        rw [hged] at hhead
        have : some (xs.foldl pick x) = some e := hhead
        injection this
      have hcode : main_element d
          = if e.1 = "X" then rest.head?.map Prod.fst else some e.1 := by
        unfold main_element
        rw [hs]
      rw [hcode]
      by_cases hX : e.1 = "X"
      · rw [if_pos hX]
        have ht : rest = ((get_elements d).erase e).insertionSort occGe := by
          apply insertionSort_tail_erase _ _ _ hnd'
          unfold sortedEle at hs
          exact hs
        have hmem : e ∈ get_elements d := by
          rw [hged, ← hfold]
          exact foldl_pick_mem xs x
        have herase : (get_elements d).erase e = (get_elements d).filter notX :=
          erase_X_eq_filter _ e hkeys hmem hX
        rw [ht, herase]
        unfold mainElementSpec
        rw [insertionSort_head]
      · rw [if_neg hX]
        have hflt := foldl_pick_filter xs x (by rw [hfold]; exact hX)
        unfold mainElementSpec
        rw [hged, hflt, hfold]
        rfl

theorem main_element_eq_spec_witness :
    (([("Fe", (3:ℚ)/5), ("X", (2:ℚ)/5)].map Prod.fst).Nodup) ∧
    main_element [("Fe", (3:ℚ)/5), ("X", (2:ℚ)/5)]
      = mainElementSpec [("Fe", (3:ℚ)/5), ("X", (2:ℚ)/5)] :=
  ⟨by decide, main_element_eq_spec [("Fe", (3:ℚ)/5), ("X", (2:ℚ)/5)] (by decide)⟩

theorem id_roundtrip_point (v : V3) :
    applyPlacement idPlacement (applyPlacement (invPlacement idPlacement) v) = v := by
  obtain ⟨a, b, c⟩ := v
  simp only [applyPlacement, invPlacement, idPlacement, dot3, det3]
  norm_num

/-- C5: under the identity placement transform, `set_positions p` followed by
`get_positions` returns `p` exactly (rationals model the float arithmetic; in
floats the identity transform multiplies by exact ones and zeros, so the
round-trip is likewise exact, well within the claimed 1e-9 tolerance).  The
hypothesis is that `set_positions` accepted `p`, i.e. its length matched. -/
theorem set_get_positions_roundtrip (localPos p q : List V3)
    (h : set_positions localPos idPlacement p = Except.ok q) :
    get_positions q idPlacement = p := by
  unfold set_positions at h
  by_cases hl : p.length ≠ localPos.length
  · rw [if_pos hl] at h
    exact absurd h (by simp)
  · rw [if_neg hl] at h
    have hq : q = local2global p idPlacement true := by
      injection h with h1
      exact h1.symm
    subst hq
    show (local2global (local2global p idPlacement true) idPlacement false) = p
    unfold local2global
    simp only [if_true, Bool.false_eq_true, if_false]
    rw [List.map_map]
    have hid : ∀ v ∈ p,
        (applyPlacement idPlacement ∘ applyPlacement (invPlacement idPlacement)) v = v :=
      fun v _ => id_roundtrip_point v
    rw [List.map_congr_left hid]
    simp

theorem set_get_positions_roundtrip_witness :
    set_positions [((0:ℚ), 0, 0)] idPlacement [((1:ℚ), 2, 3)]
        = Except.ok [((1:ℚ), 2, 3)] ∧
    get_positions [((1:ℚ), 2, 3)] idPlacement = [((1:ℚ), 2, 3)] :=
  ⟨by with_unfolding_all decide,
   set_get_positions_roundtrip [((0:ℚ), 0, 0)] [((1:ℚ), 2, 3)] [((1:ℚ), 2, 3)]
     (by with_unfolding_all decide)⟩

/-- C6: `repeat((2,1,1))` with the identity cell on the 2-site collection at
`[[0,0,0],[0.5,0,0]]` yields exactly the claimed 4-site collection
`[[0,0,0],[0.5,0,0],[1,0,0],[1.5,0,0]]`: each site is replicated
`2*1*1` times, replicas shifted by the integer combinations `0*a` and `1*a`
of the lattice vectors, original order preserved, and the first replica (the
first block of 2 sites) equal to the original sites. -/
theorem repeat_example :
    repeat_batom [(0, 0, 0), (1/2, 0, 0)] (2, 1, 1)
        ((1, 0, 0), (0, 1, 0), (0, 0, 1))
      = Except.ok [(0, 0, 0), (1/2, 0, 0), (1, 0, 0), (3/2, 0, 0)] := by
  with_unfolding_all decide

/-- C7 as stated is false on the code: the source tests `x != 1`, not
`x > 1`, so requesting multiplicity 0 along a zero lattice vector raises the
undefined-lattice error even though the claim's condition does not hold
there. -/
theorem repeat_lattice_counterexample :
    repeat_batom [(0, 0, 0)] (0, 1, 1) (((0:ℚ), 0, 0), (0, 1, 0), (0, 0, 1))
      = Except.error "Cannot repeat along undefined lattice vector"
    ∧ ¬ claimLatticeError (0, 1, 1) (((0:ℚ), 0, 0), (0, 1, 0), (0, 0, 1)) := by
  with_unfolding_all decide

/-- C7 (amended): `repeat(m, cell)` raises the undefined-lattice error
exactly when some multiplicity *different from* 1 (so 0 as well as anything
greater than 1) is requested along a zero lattice vector; when every axis
with a zero lattice vector has multiplicity exactly 1 the validation passes.
On failure no sites are added: the raise precedes `add_vertices`, which the
embedding reflects by returning the error without a position list. -/
theorem repeat_lattice_check (pos : List V3) (m : ℕ × ℕ × ℕ) (cell : Cell) :
    (∃ e, repeat_batom pos m cell = Except.error e) ↔
      ((m.1 ≠ 1 ∧ vecAny cell.1 = false) ∨ (m.2.1 ≠ 1 ∧ vecAny cell.2.1 = false)
        ∨ (m.2.2 ≠ 1 ∧ vecAny cell.2.2 = false)) := by
  unfold repeat_batom
  by_cases hc : (m.1 ≠ 1 ∧ vecAny cell.1 = false) ∨ (m.2.1 ≠ 1 ∧ vecAny cell.2.1 = false)
      ∨ (m.2.2 ≠ 1 ∧ vecAny cell.2.2 = false)
  · rw [if_pos hc]
    exact ⟨fun _ => hc, fun _ => ⟨_, rfl⟩⟩
  · rw [if_neg hc]
    constructor
    · rintro ⟨e, he⟩
      exact absurd he (by simp)
    · intro hcc
      exact absurd hcc hc

/-- C8: `delete([1])` on the 3-site collection `[A,B,C]` leaves the 2-site
collection `[A,C]`, the survivors keeping their relative order with indices
renumbered contiguously (list positions 0 and 1); a deletion that empties the
collection instead releases the object and its instancer (`none`). -/
theorem delete_renumber_example :
    delete_batom ["A", "B", "C"] (DelIndex.ints [1]) = Except.ok (some ["A", "C"]) ∧
    delete_batom ["A", "B", "C"] (DelIndex.ints [0, 1, 2]) = Except.ok none := by
  decide

/-- C10: `delete` with an empty index sequence — including the default
argument `delete()` — is not a no-op: both `Batom.delete` and `Batoms.delete`
read `index[0]` before anything else and so raise an `IndexError`, whatever
the collection contains; a non-empty index sequence is a precondition. -/
theorem delete_empty_index (sites : List String) :
    delete_batom sites (DelIndex.ints []) = Except.error "list index out of range" ∧
    delete_batom sites (DelIndex.bools []) = Except.error "list index out of range" ∧
    delete_batoms sites (DelIndex.ints []) = Except.error "list index out of range" ∧
    delete_batoms sites (DelIndex.bools []) = Except.error "list index out of range" :=
  ⟨rfl, rfl, rfl, rfl⟩

end Batoms
